import Mathlib

/-!
# frakview: escape-time iteration, colour mapping, pixel sampling and configuration

A shallow embedding of `src/frakview.c`.

* `double` values are an arbitrary type `K` carrying the operations the code
  uses for the escape loop (so the loop theorems hold for every arithmetic,
  IEEE included), and exact rationals `ℚ` for `GetColor` and `CreateView`.
* `Uint32` values are natural numbers; where the code can wrap
  (`param->iterations - 1`) the reduction `% 2 ^ 32` is explicit.
* `Uint8` channels are natural numbers below 256.
* The C library functions `atof` and `atoi` are parameters of
  `ParseParameter`; a model of them on decimal text is used for evaluation.
-/

namespace Frakview

/-! ## Data model -/

/-- The C enumeration `frakType`. -/
inductive frakType where
  | Mandelbrot
  | Julia
  deriving DecidableEq

/-- The C structure `sComplex`. -/
structure tComplex (K : Type) where
  real : K
  imag : K
  deriving DecidableEq

/-- The C structure `sRange`. -/
structure tRange (K : Type) where
  upper : K
  lower : K
  deriving DecidableEq

/-- The C structure `sParam`; the three `Uint32` fields are natural numbers. -/
structure tParam (K : Type) where
  type : frakType
  initial : tComplex K
  iterations : Nat
  radius : K
  xlim : tRange K
  ylim : tRange K
  width : Nat
  height : Nat

/-- The channels of an `SDL_Color`, each a `Uint8`. -/
structure SDL_Color where
  r : Nat
  g : Nat
  b : Nat
  a : Nat
  deriving DecidableEq

/-! ## The escape loop -/

section Loop

variable {K : Type} [Add K] [Sub K] [Mul K] [OfNat K 2] [LT K]
  [DecidableRel (LT.lt : K → K → Prop)]

/-- One pass through the body of the `for` loop of `GetIterations`, before the
escape test: the assignments to `buffer`, `z.real` and `z.imag`. -/
def GetIterations.body (z c : tComplex K) : tComplex K :=
  let buffer := z.real
  let real := c.real + z.real * z.real - z.imag * z.imag
  let imag := c.imag + 2 * buffer * z.imag
  ⟨real, imag⟩

/-- The escape test `param->radius < (z.real * z.real + z.imag * z.imag)`. -/
def GetIterations.escaped (param : tParam K) (z : tComplex K) : Bool :=
  decide (param.radius < z.real * z.real + z.imag * z.imag)

/-- The `for` loop of `GetIterations`, entered with counter `i` and value `z`.
The counter cannot wrap: it is incremented only while it is below
`param->iterations`, itself a `Uint32`. -/
def GetIterations.loop (c : tComplex K) (param : tParam K) (i : Nat) (z : tComplex K) : Nat :=
  if i < param.iterations then
    let z1 := GetIterations.body z c
    if GetIterations.escaped param z1 then i
    else GetIterations.loop c param (i + 1) z1
  else i
termination_by param.iterations - i

/-- The C function `GetIterations`. -/
def GetIterations (z c : tComplex K) (param : tParam K) : Nat :=
  GetIterations.loop c param 0 z

/-- The C function `GetMandelbrotIterations`. -/
def GetMandelbrotIterations (c : tComplex K) (param : tParam K) : Nat :=
  GetIterations param.initial c param

/-- The C function `GetJuliaIterations`. -/
def GetJuliaIterations (z0 : tComplex K) (param : tParam K) : Nat :=
  GetIterations z0 param.initial param

/-- The same loop run with an explicit step budget: `none` when the budget is
used up before the loop has left, `some i` when it leaves with counter `i`. -/
def GetIterations.run (c : tComplex K) (param : tParam K) :
    Nat → Nat → tComplex K → Option Nat
  | 0, _, _ => none
  | fuel + 1, i, z =>
    if i < param.iterations then
      let z1 := GetIterations.body z c
      if GetIterations.escaped param z1 then some i
      else GetIterations.run c param fuel (i + 1) z1
    else some i

/-- The value after `k` steps of the recurrence `z ↦ z² + c` started at `z0`
(`orbit z0 c 0 = z0`, `orbit z0 c 1` is the value after the first step). -/
def orbit (z0 c : tComplex K) : Nat → tComplex K
  | 0 => z0
  | k + 1 => GetIterations.body (orbit z0 c k) c

/-- The iterate `z_k` has squared modulus strictly above the threshold `R`. -/
def exceeds (z0 c : tComplex K) (R : K) (k : Nat) : Prop :=
  R < (orbit z0 c k).real * (orbit z0 c k).real + (orbit z0 c k).imag * (orbit z0 c k).imag

instance (z0 c : tComplex K) (R : K) (k : Nat) : Decidable (exceeds z0 c R k) := by
  unfold exceeds; infer_instance

/-- The reference escape time: the least index `i < n` with `z_{i+1}` above
the threshold, and `n` when there is none. -/
def escapeTime (z0 c : tComplex K) (R : K) (n : Nat) : Nat :=
  ((List.range n).find? (fun i => decide (exceeds z0 c R (i + 1)))).getD n

/-- The function pointer `iterate` selected at the start of `CreateView`. -/
def CreateView.iterate (param : tParam K) : tComplex K → tParam K → Nat :=
  if param.type = frakType.Mandelbrot then GetMandelbrotIterations
  else GetJuliaIterations

end Loop

/-- The parameters returned by the C function `GetDefaultParam`. -/
def GetDefaultParam : tParam ℚ :=
  { type := frakType.Mandelbrot
    initial := ⟨0, 0⟩
    iterations := 15
    radius := 20
    xlim := { lower := -2.25, upper := 1 }
    ylim := { lower := -1.3, upper := 1.3 }
    width := 800
    height := 600 }

/-! ## The colour map -/

/-- The conversion `(Uint8) x` of a `double`: the fractional part is discarded
(rounding toward zero). C leaves the conversion undefined when the result is
outside `0..255`; it is reduced modulo 256 here, which is what the usual
x86-64 code (convert to a 32-bit integer, keep the low byte) produces. -/
def toUint8 (x : ℚ) : Nat :=
  ((if 0 ≤ x then ⌊x⌋ else ⌈x⌉) % 256).toNat

/-- The four bands of `GetColor` (the second `if` chain), entered with the
colour `{255, 255, 255, 0}` and the value `v` left by the range test. -/
def GetColor.bands (v vmin vmax : ℚ) : SDL_Color :=
  let c : SDL_Color := ⟨255, 255, 255, 0⟩
  let dv := vmax - vmin
  if v < vmin + 0.25 * dv then
    { c with r := 0, g := toUint8 (1020 * (v - vmin) / dv) }
  else if v < vmin + 0.5 * dv then
    { c with r := 0, b := toUint8 (255 - 1020 * (v - vmin) / dv) }
  else if v < vmin + 0.75 * dv then
    { c with r := toUint8 (1020 * (v - vmin) / dv), b := 0 }
  else
    { c with g := toUint8 (255 - 1020 * (v - vmin) / dv), b := 0 }

/-- The C function `GetColor`. -/
def GetColor (v vmin vmax : ℚ) : SDL_Color :=
  if v < vmin then GetColor.bands vmin vmin vmax
  else if v > vmax then ⟨0, 0, 0, 0⟩
  else GetColor.bands v vmin vmax

/-- The colour has red, green and blue all zero. -/
def SDL_Color.isBlack (c : SDL_Color) : Prop :=
  c.r = 0 ∧ c.g = 0 ∧ c.b = 0

instance (c : SDL_Color) : Decidable c.isBlack := by
  unfold SDL_Color.isBlack; infer_instance

/-! ## The pixel loop of `CreateView` -/

/-- The step `gx` of `CreateView`. -/
def CreateView.gx (param : tParam ℚ) : ℚ :=
  (param.xlim.upper - param.xlim.lower) / (param.width : ℚ)

/-- The step `gy` of `CreateView`. -/
def CreateView.gy (param : tParam ℚ) : ℚ :=
  (param.ylim.lower - param.ylim.upper) / (param.height : ℚ)

/-- The plane point `pt` sampled for the pixel `(x, y)`. -/
def CreateView.pt (param : tParam ℚ) (x y : Nat) : tComplex ℚ :=
  ⟨param.xlim.lower + CreateView.gx param * (x : ℚ),
   param.ylim.upper + CreateView.gy param * (y : ℚ)⟩

/-- The iteration count `iterate(pt, param)` of the pixel `(x, y)`. -/
def CreateView.count (param : tParam ℚ) (x y : Nat) : Nat :=
  CreateView.iterate param (CreateView.pt param x y) param

/-- The third argument of the call to `GetColor`: `param->iterations - 1`,
a subtraction of `Uint32` values. -/
def CreateView.vmax (param : tParam ℚ) : Nat :=
  (param.iterations + 2 ^ 32 - 1) % 2 ^ 32

/-- The colour `color` computed for the pixel `(x, y)`. -/
def CreateView.color (param : tParam ℚ) (x y : Nat) : SDL_Color :=
  GetColor (CreateView.count param x y : ℚ) 0 (CreateView.vmax param : ℚ)

/-- The index of the raster cell written for the pixel `(x, y)`, in units of
`Uint32`: `(y * (Uint32) surface->pitch / sizeof(Uint32)) + x`. The product
is a `Uint32` product, the quotient and the sum are taken at pointer width. -/
def CreateView.offset (pitch x y : Nat) : Nat :=
  (y * pitch % 2 ^ 32) / 4 + x

/-- The band of `GetColor.bands` (1 to 4) that the value `v` falls in. -/
def GetColor.band (v vmin vmax : ℚ) : Nat :=
  let dv := vmax - vmin
  if v < vmin + 0.25 * dv then 1
  else if v < vmin + 0.5 * dv then 2
  else if v < vmin + 0.75 * dv then 3
  else 4

/-- The `double` that `GetColor.bands` hands to the `(Uint8)` conversion. -/
def GetColor.narrowed (v vmin vmax : ℚ) : ℚ :=
  let dv := vmax - vmin
  if v < vmin + 0.25 * dv then 1020 * (v - vmin) / dv
  else if v < vmin + 0.5 * dv then 255 - 1020 * (v - vmin) / dv
  else if v < vmin + 0.75 * dv then 1020 * (v - vmin) / dv
  else 255 - 1020 * (v - vmin) / dv

/-- A bound on the escape count of a Mandelbrot point `c` outside the circle
of radius 2, under the threshold `R`: with `s = |c|²`, every step adds at
least `s (s - 4) / 2` to the squared modulus. -/
def escapeBound (c : tComplex ℚ) (R : ℚ) : Nat :=
  ⌊(R - (c.real ^ 2 + c.imag ^ 2)) /
    ((c.real ^ 2 + c.imag ^ 2) * (c.real ^ 2 + c.imag ^ 2 - 4) / 2)⌋₊ + 1

/-! ## The configuration handler -/

/-- The first character `value[0]` of a C string, the terminating NUL for the
empty string. -/
def firstChar (value : String) : Char :=
  value.data.headD (Char.ofNat 0)

/-- The C function `ParseParameter`: the updated parameters and the `int`
handed back to the loader. The library functions `atof` and `atoi` are
parameters; `(Uint32) atoi(value)` is the reduction modulo `2 ^ 32`. The
arguments are `section`, `name` and `value`. -/
def ParseParameter (atof : String → ℚ) (atoi : String → Int) (param : tParam ℚ)
    (sec name value : String) : tParam ℚ × Int :=
  if sec = "calculation" ∧ name = "julia_set" then
    ({ param with
        type := if firstChar value = 't' ∨ firstChar value = 'T' ∨
            firstChar value = 'y' ∨ firstChar value = 'Y'
          then frakType.Julia else frakType.Mandelbrot }, 1)
  else if sec = "calculation" ∧ name = "initial_real" then
    ({ param with initial := { param.initial with real := atof value } }, 1)
  else if sec = "calculation" ∧ name = "initial_imag" then
    ({ param with initial := { param.initial with imag := atof value } }, 1)
  else if sec = "calculation" ∧ name = "iterations" then
    ({ param with iterations := (atoi value % 2 ^ 32).toNat }, 1)
  else if sec = "calculation" ∧ name = "radius" then
    ({ param with radius := atof value }, 1)
  else if sec = "image" ∧ name = "xlim_lower" then
    ({ param with xlim := { param.xlim with lower := atof value } }, 1)
  else if sec = "image" ∧ name = "xlim_upper" then
    ({ param with xlim := { param.xlim with upper := atof value } }, 1)
  else if sec = "image" ∧ name = "ylim_lower" then
    ({ param with ylim := { param.ylim with lower := atof value } }, 1)
  else if sec = "image" ∧ name = "ylim_upper" then
    ({ param with ylim := { param.ylim with upper := atof value } }, 1)
  else if sec = "window" ∧ name = "width" then
    ({ param with width := (atoi value % 2 ^ 32).toNat }, 1)
  else if sec = "window" ∧ name = "height" then
    ({ param with height := (atoi value % 2 ^ 32).toNat }, 1)
  else
    (param, 0)

/-- The eleven `(section, name)` pairs that `ParseParameter` recognises. -/
def recognisedKeys : List (String × String) :=
  [("calculation", "julia_set"), ("calculation", "initial_real"),
   ("calculation", "initial_imag"), ("calculation", "iterations"),
   ("calculation", "radius"), ("image", "xlim_lower"), ("image", "xlim_upper"),
   ("image", "ylim_lower"), ("image", "ylim_upper"), ("window", "width"),
   ("window", "height")]

/-- The ten recognised keys whose value is read as a number. -/
def numericKeys : List (String × String) :=
  recognisedKeys.tail

/-- The C library predicate `isspace` (in the C locale): space, and the
control characters from horizontal tab to carriage return. -/
def isspace (ch : Char) : Bool :=
  ch.toNat = 32 || (9 ≤ ch.toNat && ch.toNat ≤ 13)

/-- The decimal value of a list of digit characters, continuing from `acc`. -/
def digitsValue (acc : Nat) : List Char → Nat
  | [] => acc
  | ch :: rest => digitsValue (10 * acc + (ch.toNat - 48)) rest

/-- A sign character in front of a number: the sign and the remaining text. -/
def readSign : List Char → Bool × List Char
  | '-' :: rest => (true, rest)
  | '+' :: rest => (false, rest)
  | rest => (false, rest)

/-- The C library function `atoi` on decimal text: leading white space, an
optional sign, then the longest run of digits; text without digits there
gives 0. -/
def atoi (s : String) : Int :=
  let signed := readSign (s.data.dropWhile isspace)
  let n : Int := (digitsValue 0 (signed.2.takeWhile Char.isDigit) : Nat)
  if signed.1 then -n else n

/-- The power of ten written by an exponent part `e±digits`; 1 when the text
does not start with a complete exponent part. -/
def readExponent : List Char → ℚ
  | [] => 1
  | ch :: rest =>
    if ch = 'e' ∨ ch = 'E' then
      let signed := readSign rest
      let ds := signed.2.takeWhile Char.isDigit
      if ds = [] then 1
      else if signed.1 then 1 / (10 : ℚ) ^ digitsValue 0 ds
      else (10 : ℚ) ^ digitsValue 0 ds
    else 1

/-- The C library function `atof` on decimal text: leading white space, an
optional sign, digits with an optional fraction, an optional exponent; text
that does not start with a number gives 0. The hexadecimal, infinity and NaN
forms are not covered. -/
def atof (s : String) : ℚ :=
  let signed := readSign (s.data.dropWhile isspace)
  let whole := signed.2.takeWhile Char.isDigit
  let afterWhole := signed.2.dropWhile Char.isDigit
  let frac := match afterWhole with
    | '.' :: rest => rest.takeWhile Char.isDigit
    | _ => []
  let afterFrac := match afterWhole with
    | '.' :: rest => rest.dropWhile Char.isDigit
    | rest => rest
  let mantissa : ℚ := (digitsValue 0 (whole ++ frac) : ℚ) / (10 : ℚ) ^ frac.length
  let magnitude : ℚ :=
    if whole = [] ∧ frac = [] then 0 else mantissa * readExponent afterFrac
  if signed.1 then -magnitude else magnitude

/-! ## Lemmas on the escape loop -/

section LoopLemmas

variable {K : Type} [Add K] [Sub K] [Mul K] [OfNat K 2] [LT K]
  [DecidableRel (LT.lt : K → K → Prop)]

theorem GetIterations.escaped_orbit (z0 c : tComplex K) (param : tParam K) (i : Nat) :
    GetIterations.escaped param (GetIterations.body (orbit z0 c i) c) = true ↔
      exceeds z0 c param.radius (i + 1) := by
  simp [GetIterations.escaped, exceeds, orbit]

/-- The loop entered at counter `i` with the `i`-th iterate leaves at the first
index from `i` on whose next iterate is above the threshold, or at the cap. -/
theorem GetIterations.loop_char (z0 c : tComplex K) (param : tParam K) :
    ∀ d i, param.iterations - i = d → i ≤ param.iterations →
      i ≤ GetIterations.loop c param i (orbit z0 c i) ∧
      GetIterations.loop c param i (orbit z0 c i) ≤ param.iterations ∧
      (∀ j, i ≤ j → j < GetIterations.loop c param i (orbit z0 c i) →
        ¬ exceeds z0 c param.radius (j + 1)) ∧
      (GetIterations.loop c param i (orbit z0 c i) < param.iterations →
        exceeds z0 c param.radius (GetIterations.loop c param i (orbit z0 c i) + 1)) := by
  intro d
  induction d with
  | zero =>
    intro i hd hi
    have hlt : ¬ i < param.iterations := by omega
    rw [GetIterations.loop, if_neg hlt]
    exact ⟨le_refl _, hi, fun j h1 h2 => absurd h2 (by omega), fun h => absurd h hlt⟩
  | succ d ih =>
    intro i hd hi
    have hlt : i < param.iterations := by omega
    rw [GetIterations.loop, if_pos hlt]
    by_cases hesc : GetIterations.escaped param (GetIterations.body (orbit z0 c i) c) = true
    · simp only [hesc, if_true]
      exact ⟨le_refl _, hi, fun j h1 h2 => absurd h2 (by omega),
        fun _ => (GetIterations.escaped_orbit z0 c param i).1 hesc⟩
    · have hesc0 : GetIterations.escaped param (GetIterations.body (orbit z0 c i) c) = false := by
        simpa using hesc
      simp only [hesc0, Bool.false_eq_true, if_false]
      have hrec := ih (i + 1) (by omega) (by omega)
      rw [orbit] at hrec
      obtain ⟨h1, h2, h3, h4⟩ := hrec
      refine ⟨by omega, h2, ?_, h4⟩
      intro j hij hj
      by_cases hji : j = i
      · subst hji
        exact fun h => hesc ((GetIterations.escaped_orbit z0 c param j).2 h)
      · exact h3 j (by omega) hj

/-- The budgeted loop agrees with the loop as soon as the budget exceeds the
number of passes still admitted by the cap. -/
theorem GetIterations.run_eq_loop (c : tComplex K) (param : tParam K) :
    ∀ fuel i z, param.iterations - i < fuel →
      GetIterations.run c param fuel i z = some (GetIterations.loop c param i z) := by
  intro fuel
  induction fuel with
  | zero => intro i z h; omega
  | succ fuel ih =>
    intro i z h
    rw [GetIterations.run, GetIterations.loop]
    by_cases hlt : i < param.iterations
    · simp only [hlt, if_true]
      by_cases hesc : GetIterations.escaped param (GetIterations.body z c) = true
      · simp only [hesc, if_true]
      · have hesc0 : GetIterations.escaped param (GetIterations.body z c) = false := by
          simpa using hesc
        simp only [hesc0, Bool.false_eq_true, if_false]
        exact ih (i + 1) _ (by omega)
    · simp only [hlt, if_false]

/-- Evaluation principle: a run with budget `iterations + 1` computes
`GetIterations`. -/
theorem GetIterations.eq_of_run (z c : tComplex K) (param : tParam K) (r : Nat)
    (h : GetIterations.run c param (param.iterations + 1) 0 z = some r) :
    GetIterations z c param = r := by
  rw [GetIterations.run_eq_loop c param _ 0 z (by omega)] at h
  exact Option.some.inj h

/-- The characterisation of the result of `GetIterations`. -/
theorem GetIterations.char (z0 c : tComplex K) (param : tParam K) :
    GetIterations z0 c param ≤ param.iterations ∧
    (∀ j, j < GetIterations z0 c param → ¬ exceeds z0 c param.radius (j + 1)) ∧
    (GetIterations z0 c param < param.iterations →
      exceeds z0 c param.radius (GetIterations z0 c param + 1)) := by
  obtain ⟨_, h2, h3, h4⟩ :=
    GetIterations.loop_char z0 c param (param.iterations - 0) 0 rfl (Nat.zero_le _)
  exact ⟨h2, fun j hj => h3 j (Nat.zero_le _) hj, h4⟩

/-- The characterisation of the reference escape time. -/
theorem escapeTime_char (z0 c : tComplex K) (R : K) (n : Nat) :
    escapeTime z0 c R n ≤ n ∧
    (∀ j, j < escapeTime z0 c R n → ¬ exceeds z0 c R (j + 1)) ∧
    (escapeTime z0 c R n < n → exceeds z0 c R (escapeTime z0 c R n + 1)) := by
  unfold escapeTime
  induction n with
  | zero => simp
  | succ n ih =>
    rw [List.range_succ, List.find?_append]
    cases hf : (List.range n).find? (fun i => decide (exceeds z0 c R (i + 1))) with
    | some r =>
      rw [hf] at ih
      simp only [Option.getD_some] at ih
      have hr : r < n := List.mem_range.1 (List.mem_of_find?_eq_some hf)
      simp only [Option.or_some, Option.getD_some]
      exact ⟨by omega, ih.2.1, fun _ => ih.2.2 hr⟩
    | none =>
      rw [hf] at ih
      simp only [Option.getD_none] at ih
      by_cases hn : exceeds z0 c R (n + 1)
      · have hd : decide (exceeds z0 c R (n + 1)) = true := decide_eq_true hn
        simp only [Option.none_or, List.find?_cons, hd, Option.getD_some]
        exact ⟨by omega, ih.2.1, fun _ => hn⟩
      · have hd : decide (exceeds z0 c R (n + 1)) = false := decide_eq_false hn
        simp only [Option.none_or, List.find?_cons, hd, List.find?_nil, Option.getD_none]
        refine ⟨le_refl _, ?_, fun h => absurd h (by omega)⟩
        intro j hj
        by_cases hjn : j = n
        · subst hjn; exact hn
        · exact ih.2.1 j (by omega)

/-- Two numbers that are both "the least escaping index below `n`, else `n`"
are equal. -/
theorem least_index_unique (P : Nat → Prop) (n a b : Nat)
    (ha : a ≤ n) (ha1 : ∀ j, j < a → ¬ P (j + 1)) (ha2 : a < n → P (a + 1))
    (hb : b ≤ n) (hb1 : ∀ j, j < b → ¬ P (j + 1)) (hb2 : b < n → P (b + 1)) : a = b := by
  rcases Nat.lt_trichotomy a b with h | h | h
  · exact absurd (ha2 (by omega)) (hb1 a h)
  · exact h
  · exact absurd (hb2 (by omega)) (ha1 b h)

theorem GetIterations.eq_escapeTime (z0 c : tComplex K) (param : tParam K) :
    GetIterations z0 c param = escapeTime z0 c param.radius param.iterations := by
  obtain ⟨a, a1, a2⟩ := GetIterations.char z0 c param
  obtain ⟨b, b1, b2⟩ := escapeTime_char z0 c param.radius param.iterations
  exact least_index_unique (exceeds z0 c param.radius) param.iterations _ _ a a1 a2 b b1 b2

/-- The result of `GetIterations` depends on the parameters only through the
cap and the threshold. -/
theorem GetIterations.congr_param (z0 c : tComplex K) (p1 p2 : tParam K)
    (hn : p1.iterations = p2.iterations) (hr : p1.radius = p2.radius) :
    GetIterations z0 c p1 = GetIterations z0 c p2 := by
  rw [GetIterations.eq_escapeTime, GetIterations.eq_escapeTime, hn, hr]

end LoopLemmas

/-! ## Theorems on the escape loop -/

section LoopTheorems

variable {K : Type} [Add K] [Sub K] [Mul K] [OfNat K 2] [LT K]
  [DecidableRel (LT.lt : K → K → Prop)]

/-- C1: for every start value, constant, threshold and cap, `GetIterations`
equals the reference escape time: it is the least index `i` below the cap whose
iterate `z_{i+1}` has squared modulus strictly above the threshold, and the cap
when there is no such index. -/
theorem GetIterations_eq_reference (z0 c : tComplex K) (param : tParam K) :
    GetIterations z0 c param = escapeTime z0 c param.radius param.iterations ∧
    GetIterations z0 c param ≤ param.iterations ∧
    (∀ j, j < GetIterations z0 c param → ¬ exceeds z0 c param.radius (j + 1)) ∧
    (GetIterations z0 c param < param.iterations →
      exceeds z0 c param.radius (GetIterations z0 c param + 1)) ∧
    ((∀ i, i < param.iterations → ¬ exceeds z0 c param.radius (i + 1)) →
      GetIterations z0 c param = param.iterations) := by
  obtain ⟨h1, h2, h3⟩ := GetIterations.char z0 c param
  refine ⟨GetIterations.eq_escapeTime z0 c param, h1, h2, h3, fun hno => ?_⟩
  by_contra hne
  have hlt : GetIterations z0 c param < param.iterations := by omega
  exact hno _ hlt (h3 hlt)

/-- C2 (as the code has it): when `z_k`, the value after `k` steps with
`1 ≤ k ≤ cap`, is the first iterate above the threshold, `GetIterations`
returns `k - 1`, the loop index at which the test succeeded; when no iterate
among `z_1 .. z_cap` is above the threshold it returns the cap. -/
theorem GetIterations_first_exceeding (z0 c : tComplex K) (param : tParam K) :
    (∀ k, 1 ≤ k → k ≤ param.iterations → exceeds z0 c param.radius k →
      (∀ j, 1 ≤ j → j < k → ¬ exceeds z0 c param.radius j) →
      GetIterations z0 c param = k - 1) ∧
    ((∀ k, 1 ≤ k → k ≤ param.iterations → ¬ exceeds z0 c param.radius k) →
      GetIterations z0 c param = param.iterations) := by
  obtain ⟨h1, h2, h3⟩ := GetIterations.char z0 c param
  constructor
  · intro k hk1 hkn hex hfirst
    rcases Nat.lt_trichotomy (GetIterations z0 c param) (k - 1) with h | h | h
    · exact absurd (h3 (by omega)) (hfirst _ (by omega) (by omega))
    · exact h
    · have := h2 (k - 1) h
      rw [Nat.sub_add_cancel hk1] at this
      exact absurd hex this
  · intro hno
    by_contra hne
    have hlt : GetIterations z0 c param < param.iterations := by omega
    exact hno _ (by omega) (by omega) (h3 hlt)

/-- C3: the loop of `GetIterations` terminates, within `iterations + 1`
evaluations of its guard, and its result lies between 0 and
`param.iterations`. -/
theorem GetIterations_terminates (z0 c : tComplex K) (param : tParam K) :
    (∀ fuel, param.iterations < fuel →
      GetIterations.run c param fuel 0 z0 = some (GetIterations z0 c param)) ∧
    0 ≤ GetIterations z0 c param ∧ GetIterations z0 c param ≤ param.iterations :=
  ⟨fun fuel h => GetIterations.run_eq_loop c param fuel 0 z0 (by omega),
    Nat.zero_le _, (GetIterations.char z0 c param).1⟩

/-- C4: the Mandelbrot binding at plane point `p` with `initial = q` and the
Julia binding at plane point `q` with `initial = p` both equal
`GetIterations` with start value `q` and constant `p`; `CreateView` selects
the Mandelbrot binding exactly when the type is Mandelbrot and the Julia
binding otherwise. -/
theorem Mandelbrot_Julia_swap (p q : tComplex K) (param : tParam K) :
    GetMandelbrotIterations p { param with initial := q } =
      GetJuliaIterations q { param with initial := p } ∧
    GetMandelbrotIterations p { param with initial := q } = GetIterations q p param ∧
    GetJuliaIterations q { param with initial := p } = GetIterations q p param ∧
    CreateView.iterate param =
      (match param.type with
        | frakType.Mandelbrot => GetMandelbrotIterations
        | frakType.Julia => GetJuliaIterations) := by
  have hM : GetMandelbrotIterations p { param with initial := q } = GetIterations q p param :=
    GetIterations.congr_param q p _ param rfl rfl
  have hJ : GetJuliaIterations q { param with initial := p } = GetIterations q p param :=
    GetIterations.congr_param q p _ param rfl rfl
  refine ⟨hM.trans hJ.symm, hM, hJ, ?_⟩
  unfold CreateView.iterate
  cases param.type <;> simp

end LoopTheorems

/-- C2, counterexample: with the default cap 15 and threshold 20, start value
`(0,0)` and constant `(2,0)`, the first iterate above the threshold is `z_2`
(two completed steps), yet `GetIterations` returns 1. -/
theorem GetIterations_not_completed_steps :
    exceeds (⟨0, 0⟩ : tComplex ℚ) ⟨2, 0⟩ GetDefaultParam.radius 2 ∧
    (∀ j, 1 ≤ j → j < 2 → ¬ exceeds (⟨0, 0⟩ : tComplex ℚ) ⟨2, 0⟩ GetDefaultParam.radius j) ∧
    2 ≤ GetDefaultParam.iterations ∧
    GetIterations (⟨0, 0⟩ : tComplex ℚ) ⟨2, 0⟩ GetDefaultParam = 1 ∧
    GetIterations (⟨0, 0⟩ : tComplex ℚ) ⟨2, 0⟩ GetDefaultParam ≠ 2 := by
  have hval : GetIterations (⟨0, 0⟩ : tComplex ℚ) ⟨2, 0⟩ GetDefaultParam = 1 := by
    apply GetIterations.eq_of_run
    norm_num [GetIterations.run, GetIterations.body, GetIterations.escaped, GetDefaultParam]
  refine ⟨?_, ?_, ?_, hval, by rw [hval]; decide⟩
  · norm_num [exceeds, orbit, GetIterations.body, GetDefaultParam]
  · intro j h1 h2
    have hj : j = 1 := by omega
    subst hj
    norm_num [exceeds, orbit, GetIterations.body, GetDefaultParam]
  · norm_num [GetDefaultParam]

/-- C2, witness: start value `(0,0)`, constant `(3,0)`, default cap and
threshold; `z_2 = (12,0)` is the first iterate above 20 and the result is 1. -/
theorem GetIterations_first_exceeding_witness :
    GetIterations (⟨0, 0⟩ : tComplex ℚ) ⟨3, 0⟩ GetDefaultParam = 2 - 1 :=
  (GetIterations_first_exceeding (⟨0, 0⟩ : tComplex ℚ) ⟨3, 0⟩ GetDefaultParam).1 2
    (by decide) (by norm_num [GetDefaultParam])
    (by norm_num [exceeds, orbit, GetIterations.body, GetDefaultParam])
    (by
      intro j h1 h2
      have hj : j = 1 := by omega
      subst hj
      norm_num [exceeds, orbit, GetIterations.body, GetDefaultParam])

/-- C3, witness: with the default parameters and constant `(1,0)` a budget of
16 guard evaluations suffices. -/
theorem GetIterations_terminates_witness :
    GetIterations.run (⟨1, 0⟩ : tComplex ℚ) GetDefaultParam 16 0 ⟨0, 0⟩ =
      some (GetIterations ⟨0, 0⟩ ⟨1, 0⟩ GetDefaultParam) :=
  (GetIterations_terminates (⟨0, 0⟩ : tComplex ℚ) ⟨1, 0⟩ GetDefaultParam).1 16
    (by norm_num [GetDefaultParam])


/-! ## Lemmas on the colour map -/

/-- A value in `[0, 256)` is converted to its integer part. -/
theorem toUint8_of_nonneg_of_lt (x : ℚ) (h0 : 0 ≤ x) (h1 : x < 256) :
    toUint8 x = ⌊x⌋.toNat := by
  unfold toUint8
  rw [if_pos h0]
  have hf0 : 0 ≤ ⌊x⌋ := Int.floor_nonneg.2 h0
  have hf1 : ⌊x⌋ < 256 := Int.floor_lt.2 (by exact_mod_cast h1)
  rw [Int.emod_eq_of_lt hf0 hf1]

/-- Every band leaves one channel at 255, so no band produces black. -/
theorem GetColor.bands_not_black (v vmin vmax : ℚ) :
    ¬ (GetColor.bands v vmin vmax).isBlack := by
  unfold GetColor.bands SDL_Color.isBlack
  simp only
  split_ifs <;> simp

/-- The range test of `GetColor`, with the clamped value made explicit. -/
theorem GetColor.eq_bands (v vmin vmax : ℚ) (h : ¬ v > vmax) :
    GetColor v vmin vmax = GetColor.bands (max v vmin) vmin vmax := by
  unfold GetColor
  by_cases hv : v < vmin
  · rw [if_pos hv, max_eq_right (le_of_lt hv)]
  · rw [if_neg hv, if_neg h, max_eq_left (not_lt.1 hv)]

/-! ## Theorems on the colour map -/

/-- C5: for `vmin ≤ vmax`, `GetColor` returns red = green = blue = 0 exactly
when `v > vmax`; every other value gives a colour whose channel not written by
its band is still 255: blue in the first band, green in the second and third,
red in the fourth. -/
theorem GetColor_black_iff (v vmin vmax : ℚ) (hle : vmin ≤ vmax) :
    ((GetColor v vmin vmax).isBlack ↔ v > vmax) ∧
    (¬ v > vmax →
      (max v vmin < vmin + 0.25 * (vmax - vmin) → (GetColor v vmin vmax).b = 255) ∧
      (¬ max v vmin < vmin + 0.25 * (vmax - vmin) →
        max v vmin < vmin + 0.5 * (vmax - vmin) → (GetColor v vmin vmax).g = 255) ∧
      (¬ max v vmin < vmin + 0.5 * (vmax - vmin) →
        max v vmin < vmin + 0.75 * (vmax - vmin) → (GetColor v vmin vmax).g = 255) ∧
      (¬ max v vmin < vmin + 0.75 * (vmax - vmin) → (GetColor v vmin vmax).r = 255)) := by
  constructor
  · constructor
    · intro hb
      by_contra hv
      rw [GetColor.eq_bands v vmin vmax hv] at hb
      exact GetColor.bands_not_black _ _ _ hb
    · intro hv
      have hnot : ¬ v < vmin := not_lt.2 (le_trans hle (le_of_lt hv))
      unfold GetColor
      rw [if_neg hnot, if_pos hv]
      exact ⟨rfl, rfl, rfl⟩
  · intro hv
    rw [GetColor.eq_bands v vmin vmax hv]
    have hdv : 0 ≤ vmax - vmin := sub_nonneg.2 hle
    refine ⟨?_, ?_, ?_, ?_⟩
    · intro h1
      simp [GetColor.bands, h1]
    · intro h1 h2
      simp [GetColor.bands, h1, h2]
    · intro h2 h3
      have h1 : ¬ max v vmin < vmin + 0.25 * (vmax - vmin) := by
        intro h
        apply h2
        have : (0.25 : ℚ) * (vmax - vmin) ≤ 0.5 * (vmax - vmin) :=
          mul_le_mul_of_nonneg_right (by norm_num) hdv
        linarith
      simp [GetColor.bands, h1, h2, h3]
    · intro h3
      have h2 : ¬ max v vmin < vmin + 0.5 * (vmax - vmin) := by
        intro h
        apply h3
        have : (0.5 : ℚ) * (vmax - vmin) ≤ 0.75 * (vmax - vmin) :=
          mul_le_mul_of_nonneg_right (by norm_num) hdv
        linarith
      have h1 : ¬ max v vmin < vmin + 0.25 * (vmax - vmin) := by
        intro h
        apply h3
        have : (0.25 : ℚ) * (vmax - vmin) ≤ 0.75 * (vmax - vmin) :=
          mul_le_mul_of_nonneg_right (by norm_num) hdv
        linarith
      simp [GetColor.bands, h1, h2, h3]

/-- C5, witness: `vmin = 0`, `vmax = 10`, `v = 11` is above the range and
black. -/
theorem GetColor_black_iff_witness :
    (GetColor 11 0 10).isBlack ↔ (11 : ℚ) > 10 :=
  (GetColor_black_iff 11 0 10 (by norm_num)).1

/-- C6, counterexample: `v = 1`, `vmin = 0`, `vmax = 7` has `t = 1/7` in
`[0, 0.25)` and `1020 t = 145.71…`; the green channel is 145, the integer
part, while rounding to the nearest integer gives 146. -/
theorem GetColor_green_not_rounded :
    (0 : ℚ) < 7 ∧ (0 : ℚ) ≤ (1 - 0) / (7 - 0) ∧ ((1 : ℚ) - 0) / (7 - 0) < 0.25 ∧
    (GetColor 1 0 7).g = 145 ∧ round (1020 * (((1 : ℚ) - 0) / (7 - 0))) = 146 := by
  refine ⟨by norm_num, by norm_num, by norm_num, ?_, ?_⟩
  · have hfl : ⌊(1020 : ℚ) / 7⌋ = 145 := by
      rw [Int.floor_eq_iff]; constructor <;> norm_num
    rw [GetColor.eq_bands 1 0 7 (by norm_num)]
    norm_num [GetColor.bands, toUint8, hfl]
    rfl
  · rw [round_eq, Int.floor_eq_iff]
    constructor <;> norm_num

/-- C6 (as the code has it): for `vmin < vmax` and a value whose normalised
position `t` (after the clamp of values below `vmin`) lies in `[0, 0.25)`,
`GetColor` returns red = 0, green = the integer part of `1020 t` (rounded
down, not to nearest), which is at most 255, and blue = 255. -/
theorem GetColor_first_band (v vmin vmax : ℚ) (hlt : vmin < vmax)
    (ht : (max v vmin - vmin) / (vmax - vmin) < 0.25) :
    (GetColor v vmin vmax).r = 0 ∧
    (GetColor v vmin vmax).g = ⌊1020 * ((max v vmin - vmin) / (vmax - vmin))⌋.toNat ∧
    (GetColor v vmin vmax).g ≤ 255 ∧
    (GetColor v vmin vmax).b = 255 := by
  have hdv : 0 < vmax - vmin := sub_pos.2 hlt
  have hw0 : 0 ≤ max v vmin - vmin := sub_nonneg.2 (le_max_right v vmin)
  have ht0 : 0 ≤ (max v vmin - vmin) / (vmax - vmin) := div_nonneg hw0 (le_of_lt hdv)
  have hwlt : max v vmin - vmin < 0.25 * (vmax - vmin) := (div_lt_iff₀ hdv).1 ht
  have hv : ¬ v > vmax := by
    intro hgt
    have : max v vmin = v := max_eq_left (le_of_lt (lt_trans hlt hgt))
    rw [this] at hwlt
    linarith
  have hband : max v vmin < vmin + 0.25 * (vmax - vmin) := by linarith
  have hq : 1020 * (max v vmin - vmin) / (vmax - vmin) =
      1020 * ((max v vmin - vmin) / (vmax - vmin)) := mul_div_assoc _ _ _
  have hx0 : (0 : ℚ) ≤ 1020 * ((max v vmin - vmin) / (vmax - vmin)) := by positivity
  have hx1 : 1020 * ((max v vmin - vmin) / (vmax - vmin)) < 255 := by
    have := mul_lt_mul_of_pos_left ht (by norm_num : (0 : ℚ) < 1020)
    norm_num at this
    linarith
  have hg : (GetColor v vmin vmax).g =
      ⌊1020 * ((max v vmin - vmin) / (vmax - vmin))⌋.toNat := by
    rw [GetColor.eq_bands v vmin vmax hv]
    simp only [GetColor.bands, hband, if_true, hq]
    exact toUint8_of_nonneg_of_lt _ hx0 (by linarith)
  refine ⟨?_, hg, ?_, ?_⟩
  · rw [GetColor.eq_bands v vmin vmax hv]
    simp [GetColor.bands, hband]
  · rw [hg]
    have hfl : ⌊1020 * ((max v vmin - vmin) / (vmax - vmin))⌋ < 255 :=
      Int.floor_lt.2 (by exact_mod_cast hx1)
    omega
  · rw [GetColor.eq_bands v vmin vmax hv]
    simp [GetColor.bands, hband]

/-- C6, witness: `v = 1`, `vmin = 0`, `vmax = 7`. -/
theorem GetColor_first_band_witness :
    (GetColor 1 0 7).r = 0 ∧
    (GetColor 1 0 7).g = ⌊1020 * ((max (1 : ℚ) 0 - 0) / (7 - 0))⌋.toNat ∧
    (GetColor 1 0 7).g ≤ 255 ∧
    (GetColor 1 0 7).b = 255 :=
  GetColor_first_band 1 0 7 (by norm_num) (by norm_num)

/-- C7, counterexample: `GetColor(0, 0, 10)` is not `(0, 255, 255)`; its
green channel is 0. -/
theorem GetColor_zero_not_cyan :
    ¬ ((GetColor 0 0 10).r = 0 ∧ (GetColor 0 0 10).g = 255 ∧ (GetColor 0 0 10).b = 255) := by
  rw [GetColor.eq_bands 0 0 10 (by norm_num)]
  norm_num [GetColor.bands, toUint8]

/-- C7 (as the code has it): `GetColor(0, 0, 10)` returns exactly
(red, green, blue) = (0, 0, 255). -/
theorem GetColor_zero :
    (GetColor 0 0 10).r = 0 ∧ (GetColor 0 0 10).g = 0 ∧ (GetColor 0 0 10).b = 255 := by
  rw [GetColor.eq_bands 0 0 10 (by norm_num)]
  norm_num [GetColor.bands, toUint8]

/-! ## Lemmas on the pixel loop -/

/-- Whatever binding is selected, the count of a pixel is at most the cap. -/
theorem CreateView.count_le (param : tParam ℚ) (x y : Nat) :
    CreateView.count param x y ≤ param.iterations := by
  unfold CreateView.count CreateView.iterate
  split_ifs
  · exact (GetIterations.char _ _ param).1
  · exact (GetIterations.char _ _ param).1

/-- Without wrap-around, `param->iterations - 1` is the predecessor of the cap. -/
theorem CreateView.vmax_of_pos (param : tParam ℚ) (h1 : 1 ≤ param.iterations)
    (h32 : param.iterations < 2 ^ 32) : CreateView.vmax param = param.iterations - 1 := by
  unfold CreateView.vmax
  omega

/-- With a cap of 0 the subtraction wraps to `2^32 - 1`. -/
theorem CreateView.vmax_of_zero (param : tParam ℚ) (h0 : param.iterations = 0) :
    CreateView.vmax param = 4294967295 := by
  unfold CreateView.vmax
  rw [h0]
  norm_num

/-! ## Theorems on the pixel loop -/

/-- C8: for a raster of positive width and height and a pixel `(x, y)` inside
it, the sampled plane point is
`(xlim.lower + x (xlim.upper - xlim.lower) / width,
  ylim.upper - y (ylim.upper - ylim.lower) / height)`;
row 0 has imaginary part `ylim.upper`, column 0 has real part `xlim.lower`,
and when the ranges are ordered every sampled point lies inside them. -/
theorem CreateView_pt_formula (param : tParam ℚ) (x y : Nat)
    (hw : 0 < param.width) (hh : 0 < param.height)
    (hx : x < param.width) (hy : y < param.height) :
    (CreateView.pt param x y).real =
      param.xlim.lower + (x : ℚ) * (param.xlim.upper - param.xlim.lower) / (param.width : ℚ) ∧
    (CreateView.pt param x y).imag =
      param.ylim.upper - (y : ℚ) * (param.ylim.upper - param.ylim.lower) / (param.height : ℚ) ∧
    (CreateView.pt param x 0).imag = param.ylim.upper ∧
    (CreateView.pt param 0 y).real = param.xlim.lower ∧
    (param.xlim.lower ≤ param.xlim.upper →
      param.xlim.lower ≤ (CreateView.pt param x y).real ∧
      (CreateView.pt param x y).real ≤ param.xlim.upper) ∧
    (param.ylim.lower ≤ param.ylim.upper →
      param.ylim.lower ≤ (CreateView.pt param x y).imag ∧
      (CreateView.pt param x y).imag ≤ param.ylim.upper) := by
  have hwq : (0 : ℚ) < (param.width : ℚ) := by exact_mod_cast hw
  have hhq : (0 : ℚ) < (param.height : ℚ) := by exact_mod_cast hh
  have hxq : (x : ℚ) < (param.width : ℚ) := by exact_mod_cast hx
  have hyq : (y : ℚ) < (param.height : ℚ) := by exact_mod_cast hy
  have hx0 : (0 : ℚ) ≤ (x : ℚ) := Nat.cast_nonneg x
  have hy0 : (0 : ℚ) ≤ (y : ℚ) := Nat.cast_nonneg y
  have hre : (CreateView.pt param x y).real =
      param.xlim.lower + (x : ℚ) * (param.xlim.upper - param.xlim.lower) / (param.width : ℚ) := by
    simp only [CreateView.pt, CreateView.gx]
    field_simp
    ring
  have him : (CreateView.pt param x y).imag =
      param.ylim.upper - (y : ℚ) * (param.ylim.upper - param.ylim.lower) / (param.height : ℚ) := by
    simp only [CreateView.pt, CreateView.gy]
    field_simp
    ring
  refine ⟨hre, him, ?_, ?_, ?_, ?_⟩
  · simp [CreateView.pt]
  · simp [CreateView.pt]
  · intro hle
    have hd : 0 ≤ param.xlim.upper - param.xlim.lower := sub_nonneg.2 hle
    have hfrac : (x : ℚ) * (param.xlim.upper - param.xlim.lower) / (param.width : ℚ) ≤
        param.xlim.upper - param.xlim.lower := by
      rw [div_le_iff₀ hwq]
      nlinarith
    have hfrac0 : 0 ≤ (x : ℚ) * (param.xlim.upper - param.xlim.lower) / (param.width : ℚ) :=
      div_nonneg (mul_nonneg hx0 hd) (le_of_lt hwq)
    rw [hre]
    constructor <;> linarith
  · intro hle
    have hd : 0 ≤ param.ylim.upper - param.ylim.lower := sub_nonneg.2 hle
    have hfrac : (y : ℚ) * (param.ylim.upper - param.ylim.lower) / (param.height : ℚ) ≤
        param.ylim.upper - param.ylim.lower := by
      rw [div_le_iff₀ hhq]
      nlinarith
    have hfrac0 : 0 ≤ (y : ℚ) * (param.ylim.upper - param.ylim.lower) / (param.height : ℚ) :=
      div_nonneg (mul_nonneg hy0 hd) (le_of_lt hhq)
    rw [him]
    constructor <;> linarith

/-- C8, witness: the default parameters and the pixel `(400, 300)`. -/
theorem CreateView_pt_formula_witness :
    (CreateView.pt GetDefaultParam 400 0).imag = GetDefaultParam.ylim.upper ∧
    (CreateView.pt GetDefaultParam 0 300).real = GetDefaultParam.xlim.lower :=
  ⟨(CreateView_pt_formula GetDefaultParam 400 300 (by decide) (by decide)
      (by decide) (by decide)).2.2.1,
    (CreateView_pt_formula GetDefaultParam 400 300 (by decide) (by decide)
      (by decide) (by decide)).2.2.2.1⟩

/-- C9, counterexample: with the default parameters (cap 15, so `vmax = 14`)
the pixel `(400, 300)` samples the point `(-0.625, 0)`, which never exceeds
the threshold; its count is 15, above `vmax`, and its colour is black. -/
theorem CreateView_count_reaches_cap :
    1 ≤ GetDefaultParam.iterations ∧
    400 < GetDefaultParam.width ∧ 300 < GetDefaultParam.height ∧
    CreateView.vmax GetDefaultParam = 14 ∧
    CreateView.count GetDefaultParam 400 300 = 15 ∧
    ¬ CreateView.count GetDefaultParam 400 300 ≤ GetDefaultParam.iterations - 1 ∧
    (CreateView.color GetDefaultParam 400 300).isBlack := by
  have hpt : CreateView.pt GetDefaultParam 400 300 = ⟨-5 / 8, 0⟩ := by
    norm_num [CreateView.pt, CreateView.gx, CreateView.gy, GetDefaultParam]
  have hit : GetIterations (⟨0, 0⟩ : tComplex ℚ) ⟨-5 / 8, 0⟩ GetDefaultParam = 15 := by
    apply GetIterations.eq_of_run
    norm_num [GetIterations.run, GetIterations.body, GetIterations.escaped, GetDefaultParam]
  have hcnt : CreateView.count GetDefaultParam 400 300 = 15 := by
    unfold CreateView.count
    rw [hpt]
    exact hit
  have hvmax : CreateView.vmax GetDefaultParam = 14 := by decide
  refine ⟨by decide, by decide, by decide, hvmax, hcnt, ?_, ?_⟩
  · rw [hcnt]; decide
  · unfold CreateView.color
    rw [hcnt, hvmax]
    norm_num [GetColor, SDL_Color.isBlack]

/-- C9 (as the code has it): for a cap of at least 1, the count passed to
`GetColor` is at most the cap `maxIterations` (not `maxIterations - 1`), the
mapper's `vmax` is `maxIterations - 1`, and the black sentinel is produced
only for a count equal to the cap. -/
theorem CreateView_count_le_cap (param : tParam ℚ) (x y : Nat)
    (h1 : 1 ≤ param.iterations) (h32 : param.iterations < 2 ^ 32) :
    CreateView.count param x y ≤ param.iterations ∧
    CreateView.vmax param = param.iterations - 1 ∧
    ((CreateView.color param x y).isBlack → CreateView.count param x y = param.iterations) := by
  have hle := CreateView.count_le param x y
  have hv := CreateView.vmax_of_pos param h1 h32
  refine ⟨hle, hv, fun hb => ?_⟩
  by_contra hne
  have hlt : CreateView.count param x y ≤ param.iterations - 1 := by omega
  have hq : ¬ ((CreateView.count param x y : ℚ) > (CreateView.vmax param : ℚ)) := by
    rw [hv]
    exact not_lt.2 (by exact_mod_cast hlt)
  unfold CreateView.color at hb
  rw [GetColor.eq_bands _ _ _ hq] at hb
  exact GetColor.bands_not_black _ _ _ hb

/-- C9, witness: the default parameters and the pixel `(400, 300)`. -/
theorem CreateView_count_le_cap_witness :
    CreateView.count GetDefaultParam 400 300 ≤ GetDefaultParam.iterations :=
  (CreateView_count_le_cap GetDefaultParam 400 300 (by decide) (by decide)).1

/-- C10, counterexample: the default parameters with the cap set to 0; the
pixel `(0, 0)` gets the colour `(0, 0, 255)`, which is not black. -/
theorem CreateView_zero_cap_blue :
    ({ GetDefaultParam with iterations := 0 } : tParam ℚ).iterations = 0 ∧
    0 < ({ GetDefaultParam with iterations := 0 } : tParam ℚ).width ∧
    0 < ({ GetDefaultParam with iterations := 0 } : tParam ℚ).height ∧
    CreateView.color { GetDefaultParam with iterations := 0 } 0 0 = ⟨0, 0, 255, 0⟩ ∧
    ¬ (CreateView.color { GetDefaultParam with iterations := 0 } 0 0).isBlack := by
  have hc : CreateView.count { GetDefaultParam with iterations := 0 } 0 0 = 0 :=
    Nat.le_zero.1 (CreateView.count_le { GetDefaultParam with iterations := 0 } 0 0)
  have hv : CreateView.vmax { GetDefaultParam with iterations := 0 } = 4294967295 := by
    decide
  have hcol : CreateView.color { GetDefaultParam with iterations := 0 } 0 0 = ⟨0, 0, 255, 0⟩ := by
    unfold CreateView.color
    rw [hc, hv, GetColor.eq_bands _ _ _ (by norm_num)]
    norm_num [GetColor.bands, toUint8]
  refine ⟨rfl, by decide, by decide, hcol, ?_⟩
  rw [hcol]
  decide

/-- C10 (as the code has it): with a cap of 0 every pixel is computed without
failure and gets the colour (red, green, blue) = (0, 0, 255): the count is 0
and `vmax` is the wrapped value `2^32 - 1`. -/
theorem CreateView_zero_cap (param : tParam ℚ) (x y : Nat) (h0 : param.iterations = 0) :
    CreateView.count param x y = 0 ∧
    CreateView.vmax param = 2 ^ 32 - 1 ∧
    CreateView.color param x y = ⟨0, 0, 255, 0⟩ := by
  have hc : CreateView.count param x y = 0 := by
    have := CreateView.count_le param x y
    omega
  have hv := CreateView.vmax_of_zero param h0
  refine ⟨hc, by rw [hv]; decide, ?_⟩
  unfold CreateView.color
  rw [hc, hv, GetColor.eq_bands _ _ _ (by norm_num)]
  norm_num [GetColor.bands, toUint8]

/-- C10, witness: the default parameters with the cap set to 0, pixel
`(799, 599)`. -/
theorem CreateView_zero_cap_witness :
    CreateView.color { GetDefaultParam with iterations := 0 } 799 599 = ⟨0, 0, 255, 0⟩ :=
  (CreateView_zero_cap { GetDefaultParam with iterations := 0 } 799 599 rfl).2.2

/-! ## Further lemmas on the escape loop -/

section CapLemmas

variable {K : Type} [Add K] [Sub K] [Mul K] [OfNat K 2] [LT K]
  [DecidableRel (LT.lt : K → K → Prop)]

/-- When no iterate up to the cap is above the threshold the result is the cap. -/
theorem GetIterations.eq_cap_of_no_escape (z0 c : tComplex K) (param : tParam K)
    (hno : ∀ k, 1 ≤ k → k ≤ param.iterations → ¬ exceeds z0 c param.radius k) :
    GetIterations z0 c param = param.iterations := by
  obtain ⟨h1, _, h3⟩ := GetIterations.char z0 c param
  by_contra hne
  have hlt : GetIterations z0 c param < param.iterations := by omega
  exact hno _ (by omega) (by omega) (h3 hlt)

/-- When the iterate `z_{k+1}` is above the threshold the result is at most `k`. -/
theorem GetIterations.le_of_exceeds (z0 c : tComplex K) (param : tParam K) (k : Nat)
    (hex : exceeds z0 c param.radius (k + 1)) : GetIterations z0 c param ≤ k := by
  by_contra hgt
  exact (GetIterations.char z0 c param).2.1 k (by omega) hex

end CapLemmas

/-- Started at the origin with constant the origin, every iterate is the origin. -/
theorem orbit_zero (k : Nat) : orbit (⟨0, 0⟩ : tComplex ℚ) ⟨0, 0⟩ k = ⟨0, 0⟩ := by
  induction k with
  | zero => rfl
  | succ k ih => rw [orbit, ih]; simp [GetIterations.body]

/-- One step of the recurrence outside the circle of radius 2: when
`|c|² > 4` and `|z|² ≥ |c|²`, the squared modulus grows by at least
`|c|² (|c|² - 4) / 2`. -/
theorem body_growth (x y a b : ℚ) (hs : 4 < a ^ 2 + b ^ 2)
    (hm : a ^ 2 + b ^ 2 ≤ x ^ 2 + y ^ 2) :
    (x ^ 2 + y ^ 2) + (a ^ 2 + b ^ 2) * (a ^ 2 + b ^ 2 - 4) / 2 ≤
      (a + x * x - y * y) * (a + x * x - y * y) + (b + 2 * x * y) * (b + 2 * x * y) := by
  have hmpos : 0 < x ^ 2 + y ^ 2 := by linarith
  have key : 0 ≤ (x ^ 2 + y ^ 2) * (a ^ 2 + b ^ 2) + 4 * (x ^ 2 + y ^ 2)
      + 4 * (a * (x * x - y * y) + b * (2 * x * y)) := by
    have hsq : (x ^ 2 + y ^ 2) * ((x ^ 2 + y ^ 2) * (a ^ 2 + b ^ 2) + 4 * (x ^ 2 + y ^ 2)
        + 4 * (a * (x * x - y * y) + b * (2 * x * y))) =
        ((a * (x * x - y * y) + b * (2 * x * y)) + 2 * (x ^ 2 + y ^ 2)) ^ 2
          + (b * (x * x - y * y) - a * (2 * x * y)) ^ 2 := by ring
    have h1 : 0 ≤ (x ^ 2 + y ^ 2) * ((x ^ 2 + y ^ 2) * (a ^ 2 + b ^ 2) + 4 * (x ^ 2 + y ^ 2)
        + 4 * (a * (x * x - y * y) + b * (2 * x * y))) := by
      rw [hsq]; positivity
    by_contra hneg
    push_neg at hneg
    have := mul_neg_of_pos_of_neg hmpos hneg
    linarith
  have hexp : (a + x * x - y * y) * (a + x * x - y * y) + (b + 2 * x * y) * (b + 2 * x * y) =
      (x ^ 2 + y ^ 2) ^ 2 + 2 * (a * (x * x - y * y) + b * (2 * x * y)) + (a ^ 2 + b ^ 2) := by
    ring
  rw [hexp]
  nlinarith [mul_nonneg (sub_nonneg.2 hm) (sub_nonneg.2 hm),
    mul_nonneg (sub_nonneg.2 hm) (by linarith : (0 : ℚ) ≤ a ^ 2 + b ^ 2 - 4)]

/-- Started at the origin with `|c|² > 4`, the squared modulus of the iterate
`z_{k+1}` is at least `|c|² + k |c|² (|c|² - 4) / 2`. -/
theorem orbit_growth (c : tComplex ℚ) (hs : 4 < c.real ^ 2 + c.imag ^ 2) (k : Nat) :
    (c.real ^ 2 + c.imag ^ 2) +
        (k : ℚ) * ((c.real ^ 2 + c.imag ^ 2) * (c.real ^ 2 + c.imag ^ 2 - 4) / 2) ≤
      (orbit ⟨0, 0⟩ c (k + 1)).real ^ 2 + (orbit ⟨0, 0⟩ c (k + 1)).imag ^ 2 := by
  have hd : 0 ≤ (c.real ^ 2 + c.imag ^ 2) * (c.real ^ 2 + c.imag ^ 2 - 4) / 2 := by
    have : 0 ≤ (c.real ^ 2 + c.imag ^ 2) * (c.real ^ 2 + c.imag ^ 2 - 4) :=
      mul_nonneg (by linarith) (by linarith)
    linarith
  induction k with
  | zero =>
    simp [orbit, GetIterations.body]
  | succ k ih =>
    have hk : (0 : ℚ) ≤ (k : ℚ) := Nat.cast_nonneg k
    have hm : c.real ^ 2 + c.imag ^ 2 ≤
        (orbit ⟨0, 0⟩ c (k + 1)).real ^ 2 + (orbit ⟨0, 0⟩ c (k + 1)).imag ^ 2 :=
      le_trans (le_add_of_nonneg_right (mul_nonneg hk hd)) ih
    have hstep := body_growth (orbit ⟨0, 0⟩ c (k + 1)).real (orbit ⟨0, 0⟩ c (k + 1)).imag
      c.real c.imag hs hm
    have hbody : (orbit ⟨0, 0⟩ c (k + 1 + 1)).real ^ 2 + (orbit ⟨0, 0⟩ c (k + 1 + 1)).imag ^ 2 =
        (c.real + (orbit ⟨0, 0⟩ c (k + 1)).real * (orbit ⟨0, 0⟩ c (k + 1)).real
            - (orbit ⟨0, 0⟩ c (k + 1)).imag * (orbit ⟨0, 0⟩ c (k + 1)).imag) *
          (c.real + (orbit ⟨0, 0⟩ c (k + 1)).real * (orbit ⟨0, 0⟩ c (k + 1)).real
            - (orbit ⟨0, 0⟩ c (k + 1)).imag * (orbit ⟨0, 0⟩ c (k + 1)).imag) +
        (c.imag + 2 * (orbit ⟨0, 0⟩ c (k + 1)).real * (orbit ⟨0, 0⟩ c (k + 1)).imag) *
          (c.imag + 2 * (orbit ⟨0, 0⟩ c (k + 1)).real * (orbit ⟨0, 0⟩ c (k + 1)).imag) := by
      conv_lhs => rw [orbit]
      simp only [GetIterations.body]
      ring
    rw [hbody]
    push_cast
    linarith

/-- The orbit of `c = (-2 - 2⁻⁴⁰, 0)` started at the origin: from the second
iterate on, the iterates are real and stay between `2 + 2⁻⁴⁰` and
`2 + 4 · 5ᵏ 2⁻⁴⁰`, for the first 15 iterates. -/
theorem slow_orbit (k : Nat) (hk : k ≤ 13) :
    (orbit (⟨0, 0⟩ : tComplex ℚ) ⟨-2 - 1 / 2 ^ 40, 0⟩ (k + 2)).imag = 0 ∧
    2 + 1 / 2 ^ 40 ≤ (orbit (⟨0, 0⟩ : tComplex ℚ) ⟨-2 - 1 / 2 ^ 40, 0⟩ (k + 2)).real ∧
    (orbit (⟨0, 0⟩ : tComplex ℚ) ⟨-2 - 1 / 2 ^ 40, 0⟩ (k + 2)).real ≤
      2 + 4 * 5 ^ k * (1 / 2 ^ 40) := by
  induction k with
  | zero =>
    norm_num [orbit, GetIterations.body]
  | succ k ih =>
    obtain ⟨h0, hlo, hhi⟩ := ih (by omega)
    have hpow : (5 : ℚ) ^ k ≤ 5 ^ 12 := pow_le_pow_right₀ (by norm_num) (by omega)
    have hsmall : (4 : ℚ) * 5 ^ k * (1 / 2 ^ 40) ≤ 1 := by
      have : (4 : ℚ) * 5 ^ 12 * (1 / 2 ^ 40) ≤ 1 := by norm_num
      nlinarith
    have heps : (0 : ℚ) < 1 / 2 ^ 40 := by norm_num
    have hreal : (orbit (⟨0, 0⟩ : tComplex ℚ) ⟨-2 - 1 / 2 ^ 40, 0⟩ (k + 1 + 2)).real =
        -2 - 1 / 2 ^ 40 +
          (orbit (⟨0, 0⟩ : tComplex ℚ) ⟨-2 - 1 / 2 ^ 40, 0⟩ (k + 2)).real *
          (orbit (⟨0, 0⟩ : tComplex ℚ) ⟨-2 - 1 / 2 ^ 40, 0⟩ (k + 2)).real := by
      conv_lhs => rw [orbit]
      simp only [GetIterations.body, h0]
      ring
    have himag : (orbit (⟨0, 0⟩ : tComplex ℚ) ⟨-2 - 1 / 2 ^ 40, 0⟩ (k + 1 + 2)).imag = 0 := by
      conv_lhs => rw [orbit]
      simp only [GetIterations.body, h0]
      ring
    have hstep : ∀ x u e : ℚ, 0 < e → 2 + e ≤ x → x ≤ 2 + u → u ≤ 1 →
        2 + e ≤ -2 - e + x * x ∧ -2 - e + x * x ≤ 2 + 5 * u := by
      intro x u e he hx1 hx2 hu
      have d0 : 0 ≤ x - 2 := by linarith
      have d1 : 0 ≤ 2 + u - x := by linarith
      have d2 : 0 ≤ 1 - u := by linarith
      constructor
      · nlinarith [mul_nonneg d0 d0]
      · nlinarith [mul_nonneg d0 d1, mul_nonneg d0 d2]
    have h5 : (4 : ℚ) * 5 ^ (k + 1) * (1 / 2 ^ 40) = 5 * (4 * 5 ^ k * (1 / 2 ^ 40)) := by
      rw [pow_succ]; ring
    obtain ⟨g1, g2⟩ := hstep _ _ _ heps hlo hhi hsmall
    refine ⟨himag, ?_, ?_⟩
    · rw [hreal]; exact g1
    · rw [hreal, h5]; exact g2

/-! ## Further theorems on the escape loop -/

/-- C11: with `initial = (0,0)` and a threshold `radius ≥ 0`, the Mandelbrot
iteration at `c = (0,0)` never escapes and returns exactly `param.iterations`;
with the default parameters the result is 15. -/
theorem Mandelbrot_origin (param : tParam ℚ) (hinit : param.initial = ⟨0, 0⟩)
    (hrad : 0 ≤ param.radius) :
    (∀ k, ¬ exceeds param.initial (⟨0, 0⟩ : tComplex ℚ) param.radius k) ∧
    GetMandelbrotIterations ⟨0, 0⟩ param = param.iterations ∧
    GetMandelbrotIterations ⟨0, 0⟩ GetDefaultParam = 15 := by
  have hno : ∀ (R : ℚ), 0 ≤ R → ∀ k, ¬ exceeds (⟨0, 0⟩ : tComplex ℚ) ⟨0, 0⟩ R k := by
    intro R hR k
    unfold exceeds
    rw [orbit_zero]
    simpa using hR
  refine ⟨?_, ?_, ?_⟩
  · rw [hinit]; exact hno _ hrad
  · unfold GetMandelbrotIterations
    rw [hinit]
    exact GetIterations.eq_cap_of_no_escape _ _ param (fun k _ _ => hno _ hrad k)
  · exact GetIterations.eq_cap_of_no_escape _ _ GetDefaultParam
      (fun k _ _ => hno _ (by norm_num [GetDefaultParam]) k)

/-- C11, witness: the default parameters. -/
theorem Mandelbrot_origin_witness :
    GetMandelbrotIterations ⟨0, 0⟩ GetDefaultParam = GetDefaultParam.iterations :=
  (Mandelbrot_origin GetDefaultParam rfl (by norm_num [GetDefaultParam])).2.1

/-- C12: with the default parameters the Mandelbrot iteration at `c = (1,0)`
returns exactly 2: the iterates are `(1,0)`, `(2,0)`, `(5,0)`, the first two
are not above 20 and the third has squared modulus 25, reached at loop
index 2. -/
theorem Mandelbrot_one :
    GetMandelbrotIterations ⟨1, 0⟩ GetDefaultParam = 2 ∧
    orbit GetDefaultParam.initial (⟨1, 0⟩ : tComplex ℚ) 1 = ⟨1, 0⟩ ∧
    orbit GetDefaultParam.initial (⟨1, 0⟩ : tComplex ℚ) 2 = ⟨2, 0⟩ ∧
    orbit GetDefaultParam.initial (⟨1, 0⟩ : tComplex ℚ) 3 = ⟨5, 0⟩ ∧
    ¬ exceeds GetDefaultParam.initial (⟨1, 0⟩ : tComplex ℚ) GetDefaultParam.radius 1 ∧
    ¬ exceeds GetDefaultParam.initial (⟨1, 0⟩ : tComplex ℚ) GetDefaultParam.radius 2 ∧
    exceeds GetDefaultParam.initial (⟨1, 0⟩ : tComplex ℚ) GetDefaultParam.radius 3 ∧
    (5 : ℚ) * 5 + 0 * 0 = 25 := by
  refine ⟨?_, ?_, ?_, ?_, ?_, ?_, ?_, by norm_num⟩
  · apply GetIterations.eq_of_run
    norm_num [GetIterations.run, GetIterations.body, GetIterations.escaped, GetDefaultParam]
  all_goals norm_num [exceeds, orbit, GetIterations.body, GetDefaultParam]

/-- C13, counterexample: `c = (-2 - 2⁻⁴⁰, 0)` has `|c| > 2`, yet with the
default parameters its Mandelbrot iteration does not escape within the cap:
the first 15 iterates stay within `2⁻⁴⁰ 4 · 5¹³` of 2 in modulus, and the
count is 15, not below `maxIterations`. -/
theorem Mandelbrot_slow_escape :
    (4 : ℚ) < (-2 - 1 / 2 ^ 40) ^ 2 + 0 ^ 2 ∧
    GetMandelbrotIterations (⟨-2 - 1 / 2 ^ 40, 0⟩ : tComplex ℚ) GetDefaultParam = 15 ∧
    ¬ GetMandelbrotIterations (⟨-2 - 1 / 2 ^ 40, 0⟩ : tComplex ℚ) GetDefaultParam <
      GetDefaultParam.iterations := by
  have h : GetMandelbrotIterations (⟨-2 - 1 / 2 ^ 40, 0⟩ : tComplex ℚ) GetDefaultParam = 15 := by
    refine GetIterations.eq_cap_of_no_escape _ _ GetDefaultParam (fun k hk1 hkn => ?_)
    have hn : GetDefaultParam.iterations = 15 := rfl
    have hi : GetDefaultParam.initial = (⟨0, 0⟩ : tComplex ℚ) := rfl
    have hr : GetDefaultParam.radius = 20 := rfl
    rw [hn] at hkn
    rw [hi, hr]
    unfold exceeds
    rcases Nat.lt_or_ge k 2 with hk | hk
    · have hk' : k = 1 := by omega
      subst hk'
      norm_num [orbit, GetIterations.body]
    · obtain ⟨h0, hlo, hhi⟩ := slow_orbit (k - 2) (by omega)
      rw [Nat.sub_add_cancel hk] at h0 hlo hhi
      rw [h0]
      have hpow : (5 : ℚ) ^ (k - 2) ≤ 5 ^ 13 :=
        pow_le_pow_right₀ (by norm_num) (by omega)
      have hup : (orbit (⟨0, 0⟩ : tComplex ℚ) ⟨-2 - 1 / 2 ^ 40, 0⟩ k).real ≤ 3 := by
        have : (4 : ℚ) * 5 ^ 13 * (1 / 2 ^ 40) ≤ 1 := by norm_num
        nlinarith
      have hlow : 0 ≤ (orbit (⟨0, 0⟩ : tComplex ℚ) ⟨-2 - 1 / 2 ^ 40, 0⟩ k).real := by
        have : (0 : ℚ) ≤ 1 / 2 ^ 40 := by norm_num
        linarith
      nlinarith
  refine ⟨by norm_num, h, ?_⟩
  rw [h]
  decide

/-- C13 (as the code has it): with `initial = (0,0)` and the default threshold
20, for every `c` with `real² + imag² > 4` the Mandelbrot iteration escapes
after finitely many steps: the count is at most `escapeBound c 20`, hence
strictly below `maxIterations` whenever `maxIterations` exceeds that bound
(which the default cap 15 does not do for every such `c`). -/
theorem Mandelbrot_outside_escapes (c : tComplex ℚ) (param : tParam ℚ)
    (hs : 4 < c.real ^ 2 + c.imag ^ 2) (hinit : param.initial = ⟨0, 0⟩)
    (hrad : param.radius = 20) :
    GetMandelbrotIterations c param ≤ escapeBound c 20 ∧
    (escapeBound c 20 < param.iterations →
      GetMandelbrotIterations c param < param.iterations) := by
  have hd : 0 < (c.real ^ 2 + c.imag ^ 2) * (c.real ^ 2 + c.imag ^ 2 - 4) / 2 := by
    have : 0 < (c.real ^ 2 + c.imag ^ 2) * (c.real ^ 2 + c.imag ^ 2 - 4) :=
      mul_pos (by linarith) (by linarith)
    linarith
  have hfl : (20 - (c.real ^ 2 + c.imag ^ 2)) /
      ((c.real ^ 2 + c.imag ^ 2) * (c.real ^ 2 + c.imag ^ 2 - 4) / 2) <
      (escapeBound c 20 : ℚ) := by
    unfold escapeBound
    push_cast
    exact Nat.lt_floor_add_one _
  have hmul : 20 - (c.real ^ 2 + c.imag ^ 2) <
      (escapeBound c 20 : ℚ) *
        ((c.real ^ 2 + c.imag ^ 2) * (c.real ^ 2 + c.imag ^ 2 - 4) / 2) :=
    (div_lt_iff₀ hd).1 hfl
  have hgrow := orbit_growth c hs (escapeBound c 20)
  have hex : exceeds param.initial c param.radius (escapeBound c 20 + 1) := by
    unfold exceeds
    rw [hinit, hrad]
    have e1 : ∀ q : ℚ, q * q = q ^ 2 := fun q => (sq q).symm
    rw [e1, e1]
    linarith
  have hle : GetMandelbrotIterations c param ≤ escapeBound c 20 :=
    GetIterations.le_of_exceeds param.initial c param _ hex
  exact ⟨hle, fun h => lt_of_le_of_lt hle h⟩

/-- C13, witness: `c = (3, 0)` and the default parameters; the bound is 1,
below the cap 15. -/
theorem Mandelbrot_outside_escapes_witness :
    GetMandelbrotIterations (⟨3, 0⟩ : tComplex ℚ) GetDefaultParam <
      GetDefaultParam.iterations :=
  (Mandelbrot_outside_escapes ⟨3, 0⟩ GetDefaultParam (by norm_num) rfl rfl).2
    (by
      have hb : escapeBound ⟨3, 0⟩ 20 = 1 := by
        have hq : ((20 : ℚ) - (3 ^ 2 + 0 ^ 2)) / ((3 ^ 2 + 0 ^ 2) * (3 ^ 2 + 0 ^ 2 - 4) / 2) =
            22 / 45 := by norm_num
        have hfl : ⌊(22 : ℚ) / 45⌋₊ = 0 := Nat.floor_eq_zero.2 (by norm_num)
        unfold escapeBound
        simp only [hq, hfl]
      rw [hb]
      decide)

section CapTheorems

variable {K : Type} [Add K] [Sub K] [Mul K] [OfNat K 2] [LT K]
  [DecidableRel (LT.lt : K → K → Prop)]

/-- C20: raising the cap never changes an escape count already found: for
caps `n ≤ m` and all other parameters equal, `GetIterations` with cap `n`
equals the minimum of `n` and `GetIterations` with cap `m`. -/
theorem GetIterations_cap_monotone (z0 c : tComplex K) (param : tParam K) (n m : Nat)
    (hnm : n ≤ m) :
    GetIterations z0 c { param with iterations := n } =
      min n (GetIterations z0 c { param with iterations := m }) := by
  obtain ⟨a1, a2, a3⟩ := GetIterations.char z0 c { param with iterations := n }
  obtain ⟨b1, b2, b3⟩ := GetIterations.char z0 c { param with iterations := m }
  simp only at a1 a2 a3 b1 b2 b3
  refine least_index_unique (exceeds z0 c param.radius) n _ _ a1 a2 a3
    (min_le_left _ _) ?_ ?_
  · intro j hj
    exact b2 j (lt_of_lt_of_le hj (min_le_right _ _))
  · intro hlt
    have hb : GetIterations z0 c { param with iterations := m } < n := by
      rcases le_total n (GetIterations z0 c { param with iterations := m }) with h | h
      · rw [min_eq_left h] at hlt; omega
      · rw [min_eq_right h] at hlt; exact hlt
    rw [min_eq_right (le_of_lt hb)]
    exact b3 (lt_of_lt_of_le hb hnm)

end CapTheorems

/-- C20, witness: start `(0,0)`, constant `(1,0)`, default threshold, caps 1
and 15: the count 2 found with cap 15 is cut to 1. -/
theorem GetIterations_cap_monotone_witness :
    GetIterations (⟨0, 0⟩ : tComplex ℚ) ⟨1, 0⟩ { GetDefaultParam with iterations := 1 } =
      min 1 (GetIterations (⟨0, 0⟩ : tComplex ℚ) ⟨1, 0⟩
        { GetDefaultParam with iterations := 15 }) :=
  GetIterations_cap_monotone (⟨0, 0⟩ : tComplex ℚ) ⟨1, 0⟩ GetDefaultParam 1 15 (by decide)

/-! ## Further lemmas on the colour map -/

/-- The bands in terms of the band number and the narrowed value. -/
theorem GetColor.bands_eq (v vmin vmax : ℚ) :
    GetColor.bands v vmin vmax =
      if GetColor.band v vmin vmax = 1 then
        ⟨0, toUint8 (GetColor.narrowed v vmin vmax), 255, 0⟩
      else if GetColor.band v vmin vmax = 2 then
        ⟨0, 255, toUint8 (GetColor.narrowed v vmin vmax), 0⟩
      else if GetColor.band v vmin vmax = 3 then
        ⟨toUint8 (GetColor.narrowed v vmin vmax), 255, 0, 0⟩
      else
        ⟨255, toUint8 (GetColor.narrowed v vmin vmax), 0, 0⟩ := by
  unfold GetColor.bands GetColor.band GetColor.narrowed
  simp only
  split_ifs <;> simp_all

/-- The range of the narrowed value in each band, for a value inside
`[vmin, vmax]`. -/
theorem GetColor.narrowed_range (v vmin vmax : ℚ) (hlt : vmin < vmax)
    (hv0 : vmin ≤ v) (hv1 : v ≤ vmax) :
    (GetColor.band v vmin vmax = 1 →
      0 ≤ GetColor.narrowed v vmin vmax ∧ GetColor.narrowed v vmin vmax < 255) ∧
    (GetColor.band v vmin vmax = 2 →
      -255 < GetColor.narrowed v vmin vmax ∧ GetColor.narrowed v vmin vmax ≤ 0) ∧
    (GetColor.band v vmin vmax = 3 →
      510 ≤ GetColor.narrowed v vmin vmax ∧ GetColor.narrowed v vmin vmax < 765) ∧
    (GetColor.band v vmin vmax = 4 →
      -765 ≤ GetColor.narrowed v vmin vmax ∧ GetColor.narrowed v vmin vmax ≤ -510) := by
  have hdv : 0 < vmax - vmin := sub_pos.2 hlt
  have hq : 1020 * (v - vmin) / (vmax - vmin) * (vmax - vmin) = 1020 * (v - vmin) :=
    div_mul_cancel₀ _ (ne_of_gt hdv)
  unfold GetColor.band GetColor.narrowed
  simp only
  refine ⟨?_, ?_, ?_, ?_⟩
  · intro hb
    split_ifs at hb ⊢ with h1 h2 h3
    · constructor
      · apply div_nonneg _ (le_of_lt hdv)
        linarith
      · rw [div_lt_iff₀ hdv]
        norm_num at h1
        linarith
    all_goals omega
  · intro hb
    split_ifs at hb ⊢ with h1 h2 h3
    · omega
    · norm_num at h1 h2
      constructor
      · have : 1020 * (v - vmin) / (vmax - vmin) < 510 := by
          rw [div_lt_iff₀ hdv]; linarith
        linarith
      · have : 255 ≤ 1020 * (v - vmin) / (vmax - vmin) := by
          rw [le_div_iff₀ hdv]; linarith
        linarith
    all_goals omega
  · intro hb
    split_ifs at hb ⊢ with h1 h2 h3
    · omega
    · omega
    · norm_num at h2 h3
      constructor
      · rw [le_div_iff₀ hdv]; linarith
      · rw [div_lt_iff₀ hdv]; linarith
    · omega
  · intro hb
    split_ifs at hb ⊢ with h1 h2 h3
    · omega
    · omega
    · omega
    · norm_num at h3
      constructor
      · have : 1020 * (v - vmin) / (vmax - vmin) ≤ 1020 := by
          rw [div_le_iff₀ hdv]; linarith
        linarith
      · have : 765 ≤ 1020 * (v - vmin) / (vmax - vmin) := by
          rw [le_div_iff₀ hdv]; linarith
        linarith

/-- Within one band, moving from `v` to `v + 1` changes the narrowed value by
`1020 / (vmax - vmin)`: upwards in bands 1 and 3, downwards in bands 2 and 4. -/
theorem GetColor.narrowed_succ (v vmin vmax : ℚ) (hlt : vmin < vmax)
    (hband : GetColor.band v vmin vmax = GetColor.band (v + 1) vmin vmax) :
    ((GetColor.band v vmin vmax = 1 ∨ GetColor.band v vmin vmax = 3) →
      GetColor.narrowed (v + 1) vmin vmax =
        GetColor.narrowed v vmin vmax + 1020 / (vmax - vmin)) ∧
    ((GetColor.band v vmin vmax = 2 ∨ GetColor.band v vmin vmax = 4) →
      GetColor.narrowed (v + 1) vmin vmax =
        GetColor.narrowed v vmin vmax - 1020 / (vmax - vmin)) := by
  have hdv : (vmax - vmin) ≠ 0 := ne_of_gt (sub_pos.2 hlt)
  unfold GetColor.band at hband
  unfold GetColor.band GetColor.narrowed
  simp only at hband ⊢
  constructor
  · intro hb
    split_ifs at hband hb ⊢ <;> first | omega | (field_simp; ring)
  · intro hb
    split_ifs at hband hb ⊢ <;> first | omega | (field_simp; ring)

/-! ## Further theorems on the colour map -/

/-- C14, counterexample: `vmin = 0`, `vmax = 2047`; the adjacent integers 0
and 1 are inside the range and both in the first band, and `GetColor` gives
them the same colour `(0, 0, 255)`. -/
theorem GetColor_adjacent_equal :
    (0 : ℚ) < 2047 ∧ (0 : ℚ) ≤ 0 ∧ (0 : ℚ) + 1 ≤ 2047 ∧
    GetColor.band 0 0 2047 = 1 ∧ GetColor.band (0 + 1) 0 2047 = 1 ∧
    GetColor 0 0 2047 = ⟨0, 0, 255, 0⟩ ∧
    GetColor (0 + 1) 0 2047 = GetColor 0 0 2047 := by
  have hfl : ⌊(1020 : ℚ) / 2047⌋ = 0 := by
    rw [Int.floor_eq_iff]; constructor <;> norm_num
  have h0 : GetColor 0 0 2047 = ⟨0, 0, 255, 0⟩ := by
    rw [GetColor.eq_bands 0 0 2047 (by norm_num)]
    norm_num [GetColor.bands, toUint8]
  have h1 : GetColor (0 + 1) 0 2047 = ⟨0, 0, 255, 0⟩ := by
    rw [GetColor.eq_bands (0 + 1) 0 2047 (by norm_num)]
    norm_num [GetColor.bands, toUint8, hfl]
  refine ⟨by norm_num, le_refl _, by norm_num, ?_, ?_, h0, h1.trans h0.symm⟩
  · norm_num [GetColor.band]
  · norm_num [GetColor.band]

/-- C14 (as the code has it): for `vmin < vmax` with `vmax - vmin ≤ 1020` and
adjacent values `v`, `v + 1` inside `[vmin, vmax]` that both fall in the first
band, where the narrowing conversion is in range, `GetColor` gives them
colours that differ in the green channel: both greens are the integer part of
`1020 t`, and the green of `v + 1` is strictly larger. The other three bands
are left out. -/
theorem GetColor_adjacent_differ (v vmin vmax : ℚ) (hlt : vmin < vmax)
    (hsmall : vmax - vmin ≤ 1020) (hv0 : vmin ≤ v) (hv1 : v + 1 ≤ vmax)
    (hb : GetColor.band v vmin vmax = 1) (hb1 : GetColor.band (v + 1) vmin vmax = 1) :
    (GetColor v vmin vmax).g = ⌊1020 * (v - vmin) / (vmax - vmin)⌋.toNat ∧
    (GetColor (v + 1) vmin vmax).g = ⌊1020 * (v + 1 - vmin) / (vmax - vmin)⌋.toNat ∧
    (GetColor v vmin vmax).g < (GetColor (v + 1) vmin vmax).g ∧
    (GetColor (v + 1) vmin vmax).g ≤ 254 ∧
    ((GetColor v vmin vmax).r ≠ (GetColor (v + 1) vmin vmax).r ∨
      (GetColor v vmin vmax).g ≠ (GetColor (v + 1) vmin vmax).g ∨
      (GetColor v vmin vmax).b ≠ (GetColor (v + 1) vmin vmax).b) := by
  have hdv : 0 < vmax - vmin := sub_pos.2 hlt
  have hslope : 1 ≤ 1020 / (vmax - vmin) := by
    rw [le_div_iff₀ hdv]; linarith
  have hva : v ≤ vmax := by linarith
  have hvb : vmin ≤ v + 1 := by linarith
  have hr := (GetColor.narrowed_range v vmin vmax hlt hv0 hva).1 hb
  have hs := (GetColor.narrowed_range (v + 1) vmin vmax hlt hvb hv1).1 hb1
  have hn := (GetColor.narrowed_succ v vmin vmax hlt (hb.trans hb1.symm)).1 (Or.inl hb)
  have hnv : GetColor.narrowed v vmin vmax = 1020 * (v - vmin) / (vmax - vmin) := by
    unfold GetColor.band at hb
    unfold GetColor.narrowed
    simp only at hb ⊢
    split_ifs at hb ⊢ <;> first | rfl | omega
  have hnv1 : GetColor.narrowed (v + 1) vmin vmax =
      1020 * (v + 1 - vmin) / (vmax - vmin) := by
    unfold GetColor.band at hb1
    unfold GetColor.narrowed
    simp only at hb1 ⊢
    split_ifs at hb1 ⊢ <;> first | rfl | omega
  have hg : (GetColor v vmin vmax).g = ⌊GetColor.narrowed v vmin vmax⌋.toNat := by
    rw [GetColor.eq_bands v vmin vmax (not_lt.2 hva), max_eq_left hv0, GetColor.bands_eq]
    simp only [hb, if_true]
    exact toUint8_of_nonneg_of_lt _ hr.1 (by linarith)
  have hg1 : (GetColor (v + 1) vmin vmax).g =
      ⌊GetColor.narrowed (v + 1) vmin vmax⌋.toNat := by
    rw [GetColor.eq_bands (v + 1) vmin vmax (not_lt.2 hv1), max_eq_left hvb,
      GetColor.bands_eq]
    simp only [hb1, if_true]
    exact toUint8_of_nonneg_of_lt _ hs.1 (by linarith)
  have hf0 : 0 ≤ ⌊GetColor.narrowed v vmin vmax⌋ := Int.floor_nonneg.2 hr.1
  have hfstep : ⌊GetColor.narrowed v vmin vmax⌋ + 1 ≤
      ⌊GetColor.narrowed (v + 1) vmin vmax⌋ := by
    rw [Int.le_floor]
    push_cast
    have := Int.floor_le (GetColor.narrowed v vmin vmax)
    linarith
  have hftop : ⌊GetColor.narrowed (v + 1) vmin vmax⌋ < 255 :=
    Int.floor_lt.2 (by exact_mod_cast hs.2)
  have hlt_g : (GetColor v vmin vmax).g < (GetColor (v + 1) vmin vmax).g := by
    rw [hg, hg1]; omega
  refine ⟨by rw [hg, hnv], by rw [hg1, hnv1], hlt_g, ?_, Or.inr (Or.inl (ne_of_lt hlt_g))⟩
  rw [hg1]; omega

/-- C14, witness: `vmin = 0`, `vmax = 10`, `v = 0`: the values 0 and 1 are
both in the first band. -/
theorem GetColor_adjacent_differ_witness :
    (GetColor 0 0 10).g < (GetColor (0 + 1) 0 10).g :=
  (GetColor_adjacent_differ 0 0 10 (by norm_num) (by norm_num) (le_refl _) (by norm_num)
    (by norm_num [GetColor.band]) (by norm_num [GetColor.band])).2.2.1

/-- C18, failing input: `GetColor(3, 0, 10)` has `t = 0.3`, in the second
band; the number handed to the `(Uint8)` conversion is `255 - 306 = -51`,
outside `0..255`, and the blue channel stored (with the conversion reduced
modulo 256) is 205, not the value of the band formula. -/
theorem GetColor_narrowing_out_of_range :
    (0 : ℚ) < 10 ∧ (0 : ℚ) ≤ 3 ∧ (3 : ℚ) ≤ 10 ∧
    GetColor.band 3 0 10 = 2 ∧
    GetColor.narrowed 3 0 10 = -51 ∧
    ¬ (0 ≤ GetColor.narrowed 3 0 10 ∧ GetColor.narrowed 3 0 10 ≤ 255) ∧
    GetColor 3 0 10 = ⟨0, 255, toUint8 (GetColor.narrowed 3 0 10), 0⟩ ∧
    (GetColor 3 0 10).b = 205 := by
  have hb : GetColor.band 3 0 10 = 2 := by norm_num [GetColor.band]
  have hn : GetColor.narrowed 3 0 10 = -51 := by norm_num [GetColor.narrowed]
  have hc : ⌈(-51 : ℚ)⌉ = -51 := by
    rw [Int.ceil_eq_iff]; constructor <;> norm_num
  have hu : toUint8 (-51) = 205 := by
    norm_num [toUint8, hc]
    rfl
  have hcol : GetColor 3 0 10 = ⟨0, 255, toUint8 (GetColor.narrowed 3 0 10), 0⟩ := by
    rw [GetColor.eq_bands 3 0 10 (by norm_num), max_eq_left (by norm_num),
      GetColor.bands_eq, hb]
    simp
  refine ⟨by norm_num, by norm_num, by norm_num, hb, hn, ?_, hcol, ?_⟩
  · rw [hn]; norm_num
  · rw [hcol, hn, hu]

/-! ## Further theorems on the pixel loop -/

/-- C17: for a cap of at least 1 and every pixel, the colour computed by
`CreateView` is black exactly when the iteration count equals the cap, that
is, exactly when the pixel's plane point, iterated under the selected fractal
kind, has no iterate above the threshold within `maxIterations` steps. -/
theorem CreateView_black_iff (param : tParam ℚ) (x y : Nat)
    (h1 : 1 ≤ param.iterations) (h32 : param.iterations < 2 ^ 32) :
    ((CreateView.color param x y).isBlack ↔
      CreateView.count param x y = param.iterations) ∧
    (param.type = frakType.Mandelbrot →
      (CreateView.count param x y = param.iterations ↔
        ∀ k, 1 ≤ k → k ≤ param.iterations →
          ¬ exceeds param.initial (CreateView.pt param x y) param.radius k)) ∧
    (param.type = frakType.Julia →
      (CreateView.count param x y = param.iterations ↔
        ∀ k, 1 ≤ k → k ≤ param.iterations →
          ¬ exceeds (CreateView.pt param x y) param.initial param.radius k)) := by
  have hle := CreateView.count_le param x y
  have hv := CreateView.vmax_of_pos param h1 h32
  have hchar : ∀ z0 c : tComplex ℚ, (GetIterations z0 c param = param.iterations ↔
      ∀ k, 1 ≤ k → k ≤ param.iterations → ¬ exceeds z0 c param.radius k) := by
    intro z0 c
    constructor
    · intro heq k hk1 hkn
      have := (GetIterations.char z0 c param).2.1 (k - 1) (by omega)
      rwa [Nat.sub_add_cancel hk1] at this
    · exact GetIterations.eq_cap_of_no_escape z0 c param
  refine ⟨⟨fun hb => ?_, fun heq => ?_⟩, fun ht => ?_, fun ht => ?_⟩
  · by_contra hne
    have hlt : CreateView.count param x y ≤ param.iterations - 1 := by omega
    have hq : ¬ ((CreateView.count param x y : ℚ) > (CreateView.vmax param : ℚ)) := by
      rw [hv]
      exact not_lt.2 (by exact_mod_cast hlt)
    unfold CreateView.color at hb
    rw [GetColor.eq_bands _ _ _ hq] at hb
    exact GetColor.bands_not_black _ _ _ hb
  · have hgt : (CreateView.count param x y : ℚ) > (CreateView.vmax param : ℚ) := by
      rw [hv, heq]
      have : param.iterations - 1 < param.iterations := by omega
      exact_mod_cast this
    have hn0 : ¬ (CreateView.count param x y : ℚ) < 0 :=
      not_lt.2 (Nat.cast_nonneg _)
    unfold CreateView.color GetColor
    rw [if_neg hn0, if_pos hgt]
    exact ⟨rfl, rfl, rfl⟩
  · have hc : CreateView.count param x y =
        GetIterations param.initial (CreateView.pt param x y) param := by
      simp [CreateView.count, CreateView.iterate, ht, GetMandelbrotIterations]
    rw [hc]
    exact hchar _ _
  · have hc : CreateView.count param x y =
        GetIterations (CreateView.pt param x y) param.initial param := by
      simp [CreateView.count, CreateView.iterate, ht, GetJuliaIterations]
    rw [hc]
    exact hchar _ _

/-- C17, witness: the default parameters and the pixel `(400, 300)`. -/
theorem CreateView_black_iff_witness :
    (CreateView.color GetDefaultParam 400 300).isBlack ↔
      CreateView.count GetDefaultParam 400 300 = GetDefaultParam.iterations :=
  (CreateView_black_iff GetDefaultParam 400 300 (by decide) (by decide)).1

/-- C19: on a surface whose pitch is `4 * width` bytes with
`height * pitch < 2^32`, the cell offset of a pixel `(x, y)` inside the raster
is `y * width + x`, stays below `width * height` (and below `2^32`), differs
for different pixels, and every cell below `width * height` is the offset of
a pixel of the raster. -/
theorem CreateView_offset_bijective (width height : Nat)
    (hfit : height * (4 * width) < 2 ^ 32) :
    (∀ x y, x < width → y < height →
      CreateView.offset (4 * width) x y = y * width + x ∧
      CreateView.offset (4 * width) x y < width * height ∧
      CreateView.offset (4 * width) x y < 2 ^ 32) ∧
    (∀ x y x0 y0, x < width → y < height → x0 < width → y0 < height →
      CreateView.offset (4 * width) x y = CreateView.offset (4 * width) x0 y0 →
      x = x0 ∧ y = y0) ∧
    (∀ cell, cell < width * height →
      ∃ x y, x < width ∧ y < height ∧ CreateView.offset (4 * width) x y = cell) := by
  have hoff : ∀ x y, x < width → y < height →
      CreateView.offset (4 * width) x y = y * width + x := by
    intro x y _ hy
    unfold CreateView.offset
    have hle : y * (4 * width) ≤ height * (4 * width) :=
      Nat.mul_le_mul_right _ (le_of_lt hy)
    rw [Nat.mod_eq_of_lt (lt_of_le_of_lt hle hfit)]
    have : y * (4 * width) = 4 * (y * width) := by ring
    rw [this, Nat.mul_div_cancel_left _ (by decide : 0 < 4)]
  have hbound : ∀ x y, x < width → y < height → y * width + x < width * height := by
    intro x y hx hy
    calc y * width + x < y * width + width := by omega
      _ = (y + 1) * width := by ring
      _ ≤ height * width := Nat.mul_le_mul_right _ hy
      _ = width * height := Nat.mul_comm _ _
  refine ⟨fun x y hx hy => ⟨hoff x y hx hy, ?_, ?_⟩, ?_, ?_⟩
  · rw [hoff x y hx hy]; exact hbound x y hx hy
  · rw [hoff x y hx hy]
    have := hbound x y hx hy
    have h4 : width * height ≤ height * (4 * width) := by
      have : height * (4 * width) = 4 * (width * height) := by ring
      omega
    omega
  · intro x y x0 y0 hx hy hx0 hy0 heq
    rw [hoff x y hx hy, hoff x0 y0 hx0 hy0] at heq
    have hyy : y = y0 := by
      rcases Nat.lt_trichotomy y y0 with h | h | h
      · have : (y + 1) * width ≤ y0 * width := Nat.mul_le_mul_right _ h
        have e : (y + 1) * width = y * width + width := by ring
        omega
      · exact h
      · have : (y0 + 1) * width ≤ y * width := Nat.mul_le_mul_right _ h
        have e : (y0 + 1) * width = y0 * width + width := by ring
        omega
    subst hyy
    exact ⟨by omega, rfl⟩
  · intro cell hcell
    have hw : 0 < width := by
      rcases Nat.eq_zero_or_pos width with h | h
      · rw [h] at hcell; simp at hcell
      · exact h
    refine ⟨cell % width, cell / width, Nat.mod_lt _ hw, ?_, ?_⟩
    · exact (Nat.div_lt_iff_lt_mul hw).2 (by rw [Nat.mul_comm]; exact hcell)
    · rw [hoff _ _ (Nat.mod_lt _ hw)
        ((Nat.div_lt_iff_lt_mul hw).2 (by rw [Nat.mul_comm]; exact hcell))]
      rw [Nat.mul_comm]
      exact Nat.div_add_mod cell width

/-- C19, witness: the last pixel `(799, 599)` of the default raster of 800 by
600 pixels is written to the last cell. -/
theorem CreateView_offset_bijective_witness :
    CreateView.offset (4 * 800) 799 599 = 599 * 800 + 799 ∧
    CreateView.offset (4 * 800) 799 599 < 800 * 600 ∧
    CreateView.offset (4 * 800) 799 599 < 2 ^ 32 :=
  (CreateView_offset_bijective 800 600 (by decide)).1 799 599 (by decide) (by decide)

/-! ## Theorems on the configuration handler -/

/-- C15, counterexample: for the unrecognised entry `depth` of section
`window`, `ParseParameter` returns 0, the result that the loader reports as
an error, not a non-zero result. -/
theorem ParseParameter_unknown_is_error :
    ("window", "depth") ∉ recognisedKeys ∧
    (ParseParameter atof atoi GetDefaultParam "window" "depth" "32").2 = 0 ∧
    ¬ (ParseParameter atof atoi GetDefaultParam "window" "depth" "32").2 ≠ 0 := by
  refine ⟨by decide, ?_, ?_⟩ <;> simp [ParseParameter]

/-- C15 (as the code has it): for every `(section, name)` pair that is not
one of the eleven recognised keys, `ParseParameter` returns 0 (the loader's
error result) and leaves the parameters unchanged. -/
theorem ParseParameter_unknown (atof0 : String → ℚ) (atoi0 : String → Int)
    (param : tParam ℚ) (sec name value : String)
    (hkey : (sec, name) ∉ recognisedKeys) :
    ParseParameter atof0 atoi0 param sec name value = (param, 0) := by
  simp only [recognisedKeys, List.mem_cons, Prod.mk.injEq, List.mem_singleton,
    List.not_mem_nil, or_false, not_or] at hkey
  obtain ⟨k1, k2, k3, k4, k5, k6, k7, k8, k9, k10, k11⟩ := hkey
  unfold ParseParameter
  rw [if_neg k1, if_neg k2, if_neg k3, if_neg k4, if_neg k5, if_neg k6, if_neg k7,
    if_neg k8, if_neg k9, if_neg k10, if_neg k11]

/-- C15, witness: the entry `depth` of section `window`. -/
theorem ParseParameter_unknown_witness :
    ParseParameter atof atoi GetDefaultParam "window" "depth" "32" = (GetDefaultParam, 0) :=
  ParseParameter_unknown atof atoi GetDefaultParam "window" "depth" "32" (by decide)

/-- C16, counterexample: for the recognised numeric key `radius` of section
`calculation` and the value text `abc`, which is not a number,
`ParseParameter` returns 1 and stores `atof("abc") = 0` as the threshold. -/
theorem ParseParameter_accepts_malformed :
    ("calculation", "radius") ∈ numericKeys ∧
    atof "abc" = 0 ∧
    ParseParameter atof atoi GetDefaultParam "calculation" "radius" "abc" =
      ({ GetDefaultParam with radius := 0 }, 1) ∧
    (ParseParameter atof atoi GetDefaultParam "calculation" "radius" "abc").2 ≠ 0 := by
  have ha : atof "abc" = 0 := by decide
  have hp : ParseParameter atof atoi GetDefaultParam "calculation" "radius" "abc" =
      ({ GetDefaultParam with radius := 0 }, 1) := by
    simp [ParseParameter, ha]
  refine ⟨by decide, ha, hp, ?_⟩
  rw [hp]
  decide

/-- C16 (as the code has it): for every recognised numeric key and every value
text, well-formed or not, `ParseParameter` returns 1 and stores what `atof`
(or `atoi`, reduced to a `Uint32`) makes of the text. -/
theorem ParseParameter_numeric (atof0 : String → ℚ) (atoi0 : String → Int)
    (param : tParam ℚ) (value : String) :
    (∀ key, key ∈ numericKeys →
      (ParseParameter atof0 atoi0 param key.1 key.2 value).2 = 1) ∧
    ParseParameter atof0 atoi0 param "calculation" "initial_real" value =
      ({ param with initial := { param.initial with real := atof0 value } }, 1) ∧
    ParseParameter atof0 atoi0 param "calculation" "initial_imag" value =
      ({ param with initial := { param.initial with imag := atof0 value } }, 1) ∧
    ParseParameter atof0 atoi0 param "calculation" "iterations" value =
      ({ param with iterations := (atoi0 value % 2 ^ 32).toNat }, 1) ∧
    ParseParameter atof0 atoi0 param "calculation" "radius" value =
      ({ param with radius := atof0 value }, 1) ∧
    ParseParameter atof0 atoi0 param "image" "xlim_lower" value =
      ({ param with xlim := { param.xlim with lower := atof0 value } }, 1) ∧
    ParseParameter atof0 atoi0 param "image" "xlim_upper" value =
      ({ param with xlim := { param.xlim with upper := atof0 value } }, 1) ∧
    ParseParameter atof0 atoi0 param "image" "ylim_lower" value =
      ({ param with ylim := { param.ylim with lower := atof0 value } }, 1) ∧
    ParseParameter atof0 atoi0 param "image" "ylim_upper" value =
      ({ param with ylim := { param.ylim with upper := atof0 value } }, 1) ∧
    ParseParameter atof0 atoi0 param "window" "width" value =
      ({ param with width := (atoi0 value % 2 ^ 32).toNat }, 1) ∧
    ParseParameter atof0 atoi0 param "window" "height" value =
      ({ param with height := (atoi0 value % 2 ^ 32).toNat }, 1) := by
  refine ⟨?_, ?_, ?_, ?_, ?_, ?_, ?_, ?_, ?_, ?_, ?_⟩
  · intro key hkey
    simp only [numericKeys, recognisedKeys, List.tail_cons, List.mem_cons,
      List.mem_singleton, List.not_mem_nil, or_false] at hkey
    rcases hkey with h | h | h | h | h | h | h | h | h | h <;> subst h <;>
      simp [ParseParameter]
  all_goals simp [ParseParameter]

end Frakview
